import Mathlib

/-!
Shallow embedding of the iterator-comprehension pipeline from
src/src/iteratorcomprehensions/lib.rs.

The Rust macro iterator_tail! expands a comprehension
  map for v1 in g1 [if f1] ... for vn in gn [if fn]
into the iterator chain
  g1 [.filter(f1)]
    .flat_map(|E| Repeat::new(E).zip(g2)) [.filter(f2)]
    ...
    .map(|E| map)
where the environment tuple E is the nested pair produced by arglist!.
Iterators are modelled as Lean lists; each combinator below is the list
denotation of the corresponding Rust iterator adapter, and an instrumented
variant records the generator invocations of the flatten stage.
-/

namespace IterComp

/-- Rust half-open integer range: the elements of range(a, b), in order,
empty when b is at most a. -/
def rangeInt (a b : Int) : List Int :=
  (List.range (b - a).toNat).map (fun k => a + (k : Int))

/-- The prepend adapter Repeat::new(e).zip(xs): Repeat always yields e and
Zip stops when xs stops, so each pull pairs e with the next element of xs. -/
def repeatZip (e : β) : List α → List (β × α)
  | [] => []
  | x :: xs => (e, x) :: repeatZip e xs

/-- Chained filter stages: applies each predicate of the ordered list as its
own filter pass, in declared order. -/
def filterPreds (preds : List (γ → Bool)) (xs : List γ) : List γ :=
  preds.foldl (fun acc p => acc.filter p) xs

/-- The flatten stage head.flat_map(|e| Repeat::new(e).zip(gen(e))): for each
outer tuple e the generator is evaluated afresh at e and every element of the
fresh inner sequence is prepended with e. -/
def expand (gen : β → List α) : List β → List (β × α)
  | [] => []
  | e :: es => repeatZip e (gen e) ++ expand gen es

/-- Instrumented flatten stage: alongside the output it records, in
invocation order, each outer tuple on which the generator is invoked. -/
def expandLog (gen : β → List α) : List β → List (β × α) × List β
  | [] => ([], [])
  | e :: es =>
    let r := expandLog gen es
    (repeatZip e (gen e) ++ r.1, e :: r.2)

/-- A comprehension clause list as iterator_tail! consumes it: base is the
first clause (its generator sees no environment), step appends one clause
whose generator and predicates see the environment tuple of all earlier
binders. The index is the environment-tuple type after the clause. -/
inductive Comp (α : Type) : Type → Type 1 where
  | base (gen : List α) (preds : List (α → Bool)) : Comp α α
  | step {β : Type} (c : Comp α β) (gen : β → List α) (preds : List (β × α → Bool)) :
      Comp α (β × α)

/-- The stream of surviving environment tuples after the last clause of the
pipeline (generator, flatten with prepend, then that clause's filters). -/
def Comp.run : Comp α β → List β
  | .base gen preds => filterPreds preds gen
  | .step c gen preds => filterPreds preds (expand gen c.run)

/-- The candidate tuples of the last clause, before its own predicates run. -/
def Comp.candidates : Comp α β → List β
  | .base gen _ => gen
  | .step c gen _ => expand gen c.run

/-- The predicates of the last clause. -/
def Comp.preds : Comp α β → List (β → Bool)
  | .base _ ps => ps
  | .step _ _ ps => ps

/-- The full pipeline: the surviving tuples fed through the terminal map. -/
def Comp.output (c : Comp α β) (m : β → ρ) : List ρ :=
  (c.run).map m

/-- The strict lexicographic order on environment tuples of a clause list:
earlier (outer) binders compare first, so the outer binder varies slowest. -/
def Comp.lexLt (lt : α → α → Prop) : Comp α β → β → β → Prop
  | .base _ _ => lt
  | .step c _ _ => fun p q => c.lexLt lt p.1 q.1 ∨ (p.1 = q.1 ∧ lt p.2 q.2)

/-- Every generator of the clause list enumerates its elements in strictly
increasing order of lt. -/
def Comp.GensSorted (lt : α → α → Prop) : Comp α β → Prop
  | .base gen _ => gen.Pairwise lt
  | .step c gen _ => c.GensSorted lt ∧ ∀ e, (gen e).Pairwise lt

/-- Type of the nested tuple arglist! builds over n + 1 homogeneous binders. -/
def Tup (α : Type) : Nat → Type
  | 0 => α
  | n + 1 => Tup α n × α

/-- Value-level arglist!: arglist v [] is v alone, and with further
identifiers the first (most recently bound) one becomes the second component
of the outermost pair. -/
def arglist (v : α) : (vs : List α) → Tup α vs.length
  | [] => v
  | w :: ws => (arglist w ws, v)

/-- Value of the left-to-right conjunction p1 && p2 && ... of the predicates
attached to one clause, at e. -/
def andChain {γ : Type} (e : γ) : List (γ → Bool) → Bool
  | [] => true
  | p :: ps => p e && andChain e ps

/-- The results of the predicate evaluations the chain actually performs at
e, in order: evaluation stops at the first predicate that fails. -/
def andChainEval {γ : Type} (e : γ) : List (γ → Bool) → List Bool
  | [] => []
  | p :: ps => if p e then true :: andChainEval e ps else [false]

/-- A pull-based iterator: the elements it has not produced yet. -/
structure PullIter (ρ : Type) where
  elems : List ρ

/-- One pull: the next element and the advanced iterator, or none when the
iterator is exhausted. -/
def PullIter.next : PullIter ρ → Option (ρ × PullIter ρ)
  | ⟨[]⟩ => none
  | ⟨x :: xs⟩ => some (x, ⟨xs⟩)

/-- Worker for collect, structurally consuming the pending elements. -/
def collectFrom : List ρ → List ρ
  | [] => []
  | x :: xs => x :: collectFrom xs

/-- Exhausting the iterator by repeated pulls, collecting every element. -/
def PullIter.collect (it : PullIter ρ) : List ρ :=
  collectFrom it.elems

/-- Building the comprehension pipeline from a clause list and terminal map:
the iterator handed to the caller. -/
def Comp.build (c : Comp α β) (m : β → ρ) : PullIter ρ :=
  ⟨c.output m⟩

/-- Example of the docs and of iterator2_example_test:
(i, j) for i in range(0, 3) for j in range(0, i + 1) if (i + j) % 2 == 0. -/
def comp2dep : Comp Int (Int × Int) :=
  .step (.base (rangeInt 0 3) []) (fun i => rangeInt 0 (i + 1))
    [fun p => (p.1 + p.2) % 2 == 0]

/-- iterator2_map_test: i * j for i in range(1, 3) for j in range(2, 4). -/
def comp2lex : Comp Int (Int × Int) :=
  .step (.base (rangeInt 1 3) []) (fun _ => rangeInt 2 4) []

/-- iterator1_filter_test: i for i in range(0, 3) if i % 2 == 1. -/
def comp1odd : Comp Int Int :=
  .base (rangeInt 0 3) [fun i => i % 2 == 1]

/-- iterator3_empty_test: i * j * k for i in range(0, 2) for j in range(0, i)
for k in range(0, 1). -/
def comp3empty : Comp Int ((Int × Int) × Int) :=
  .step (.step (.base (rangeInt 0 2) []) (fun i => rangeInt 0 i) [])
    (fun _ => rangeInt 0 1) []

/-- First clause of iterator6_test: i in range(0, 5). -/
def comp6a : Comp Int Int := .base (rangeInt 0 5) []

/-- Clauses 1-2 of iterator6_test. -/
def comp6b : Comp Int (Int × Int) := .step comp6a (fun _ => rangeInt 0 5) []

/-- Clauses 1-3 of iterator6_test. -/
def comp6c : Comp Int ((Int × Int) × Int) :=
  .step comp6b (fun _ => rangeInt 0 5) []

/-- Clauses 1-4 of iterator6_test. -/
def comp6d : Comp Int (((Int × Int) × Int) × Int) :=
  .step comp6c (fun _ => rangeInt 0 5) []

/-- Clauses 1-5 of iterator6_test. -/
def comp6e : Comp Int ((((Int × Int) × Int) × Int) × Int) :=
  .step comp6d (fun _ => rangeInt 0 5) []

/-- iterator6_test: six clauses, each ranging over range(0, 5). -/
def comp6 : Comp Int (((((Int × Int) × Int) × Int) × Int) × Int) :=
  .step comp6e (fun _ => rangeInt 0 5) []

/-- The terminal map of iterator6_test, flattening the environment tuple into
the 6-tuple (i, j, k, l, m, n). -/
def map6 (e : ((((Int × Int) × Int) × Int) × Int) × Int) :
    Int × Int × Int × Int × Int × Int :=
  (e.1.1.1.1.1, e.1.1.1.1.2, e.1.1.1.2, e.1.1.2, e.1.2, e.2)

/-! Basic facts about the stages. -/

lemma repeatZip_eq_map (e : β) (xs : List α) :
    repeatZip e xs = xs.map (fun x => (e, x)) := by
  induction xs with
  | nil => rfl
  | cons x xs ih => simp [repeatZip, ih]

lemma filterPreds_cons (p : γ → Bool) (ps : List (γ → Bool)) (xs : List γ) :
    filterPreds (p :: ps) xs = filterPreds ps (xs.filter p) := rfl

lemma mem_filterPreds {ps : List (γ → Bool)} {xs : List γ} {e : γ} :
    e ∈ filterPreds ps xs ↔ e ∈ xs ∧ ∀ p ∈ ps, p e = true := by
  induction ps generalizing xs with
  | nil => simp [filterPreds]
  | cons p ps ih =>
    rw [filterPreds_cons, ih]
    simp [List.mem_filter]
    tauto

lemma filterPreds_sublist (ps : List (γ → Bool)) (xs : List γ) :
    List.Sublist (filterPreds ps xs) xs := by
  induction ps generalizing xs with
  | nil => exact List.Sublist.refl xs
  | cons p ps ih => exact (ih (xs.filter p)).trans (List.filter_sublist xs)

lemma expandLog_fst (gen : β → List α) (l : List β) :
    (expandLog gen l).1 = expand gen l := by
  induction l with
  | nil => rfl
  | cons e es ih => simp [expandLog, expand, ih]

lemma expandLog_snd (gen : β → List α) (l : List β) :
    (expandLog gen l).2 = l := by
  induction l with
  | nil => rfl
  | cons e es ih => simp [expandLog, ih]

lemma fst_mem_of_mem_expand {gen : β → List α} {l : List β} {p : β × α}
    (h : p ∈ expand gen l) : p.1 ∈ l := by
  induction l with
  | nil => simp [expand] at h
  | cons e es ih =>
    rw [expand, List.mem_append] at h
    rcases h with h | h
    · rw [repeatZip_eq_map, List.mem_map] at h
      obtain ⟨x, -, rfl⟩ := h
      exact List.mem_cons_self e es
    · exact List.mem_cons_of_mem e (ih h)

lemma run_eq_filterPreds_candidates (c : Comp α β) :
    c.run = filterPreds c.preds c.candidates := by
  cases c <;> rfl

lemma expand_append (gen : β → List α) (l₁ l₂ : List β) :
    expand gen (l₁ ++ l₂) = expand gen l₁ ++ expand gen l₂ := by
  induction l₁ with
  | nil => rfl
  | cons e es ih => simp [expand, ih]

lemma getLast?_expand (gen : β → List α) (l : List β)
    (hg : ∀ e ∈ l, gen e ≠ []) :
    (expand gen l).getLast?
      = l.getLast?.bind (fun e => ((gen e).getLast?).map (fun x => (e, x))) := by
  induction l with
  | nil => rfl
  | cons e es ih =>
    cases es with
    | nil =>
      rw [expand, expand, List.append_nil, repeatZip_eq_map, List.getLast?_map]
      rfl
    | cons e' es' =>
      have hne : expand gen (e' :: es') ≠ [] := by
        rw [expand]
        cases h : gen e' with
        | nil => exact absurd h (hg e' (List.mem_cons_of_mem e (List.mem_cons_self e' es')))
        | cons x xs => simp [repeatZip]
      rw [expand, List.getLast?_append_of_ne_nil _ hne,
        ih (fun a ha => hg a (List.mem_cons_of_mem e ha))]
      rfl

/-! Lexicographic enumeration order. -/

lemma pairwise_expand {lt' : β → β → Prop} {lt : α → α → Prop}
    {R : β × α → β × α → Prop}
    (houter : ∀ e e' x x', lt' e e' → R (e, x) (e', x'))
    (hinner : ∀ e x x', lt x x' → R (e, x) (e, x'))
    {head : List β} (hh : head.Pairwise lt') {gen : β → List α}
    (hg : ∀ e, (gen e).Pairwise lt) :
    (expand gen head).Pairwise R := by
  induction head with
  | nil => exact List.Pairwise.nil
  | cons e es ih =>
    rw [expand, List.pairwise_append]
    rw [List.pairwise_cons] at hh
    refine ⟨?_, ih hh.2, ?_⟩
    · rw [repeatZip_eq_map, List.pairwise_map]
      exact (hg e).imp (fun h => hinner e _ _ h)
    · intro p hp q hq
      rw [repeatZip_eq_map, List.mem_map] at hp
      obtain ⟨x, -, rfl⟩ := hp
      have hq1 : q.1 ∈ es := fst_mem_of_mem_expand hq
      have : R (e, x) (q.1, q.2) := houter _ _ _ _ (hh.1 _ hq1)
      simpa using this

/-- When every generator is sorted, the surviving environment tuples are
enumerated in strict lexicographic order, outer binder varying slowest. -/
theorem run_pairwise_lexLt (lt : α → α → Prop) (c : Comp α β)
    (h : c.GensSorted lt) : (c.run).Pairwise (c.lexLt lt) := by
  induction c with
  | base gen preds =>
    exact List.Pairwise.sublist (filterPreds_sublist preds gen) h
  | step c gen preds ih =>
    refine List.Pairwise.sublist (filterPreds_sublist preds _) ?_
    exact pairwise_expand (fun e e' x x' hlt => Or.inl hlt)
      (fun e x x' hlt => Or.inr ⟨rfl, hlt⟩) (ih h.1) h.2

/-! Short-circuit conjunction of the predicates attached to one clause. -/

lemma andChain_eq_true {γ : Type} {e : γ} {ps : List (γ → Bool)} :
    andChain e ps = true ↔ ∀ p ∈ ps, p e = true := by
  induction ps with
  | nil => simp [andChain]
  | cons p ps ih => simp [andChain, ih]

lemma filter_filter_comm (p q : γ → Bool) (xs : List γ) :
    (xs.filter p).filter q = xs.filter (fun e => p e && q e) := by
  induction xs with
  | nil => rfl
  | cons x xs ih =>
    by_cases hp : p x <;> by_cases hq : q x <;>
      simp [List.filter, hp, hq, ih]

lemma filterPreds_eq_filter_andChain (ps : List (γ → Bool)) (xs : List γ) :
    filterPreds ps xs = xs.filter (fun e => andChain e ps) := by
  induction ps generalizing xs with
  | nil => simp [filterPreds, andChain]
  | cons p ps ih =>
    rw [filterPreds_cons, ih, filter_filter_comm]
    simp [andChain]

lemma andChainEval_stops {γ : Type} {e : γ} {ps₁ ps₂ : List (γ → Bool)}
    {p : γ → Bool} (h1 : ∀ q ∈ ps₁, q e = true) (h2 : p e = false) :
    andChainEval e (ps₁ ++ p :: ps₂) = ps₁.map (fun q => q e) ++ [false] := by
  induction ps₁ with
  | nil => simp [andChainEval, h2]
  | cons q qs ih =>
    have hq : q e = true := h1 q (List.mem_cons_self q qs)
    simp [andChainEval, hq,
      ih (fun r hr => h1 r (List.mem_cons_of_mem q hr))]

/-! The pull-iteration protocol. -/

lemma collectFrom_eq (l : List ρ) : collectFrom l = l := by
  induction l with
  | nil => rfl
  | cons x xs ih => rw [collectFrom, ih]

/-- Collect is the pull loop: it pulls with next until none is returned. -/
lemma collect_eq_pull_loop (it : PullIter ρ) :
    it.collect = match it.next with
      | none => []
      | some (x, it') => x :: it'.collect := by
  obtain ⟨l⟩ := it
  cases l <;> rfl

lemma collect_build (c : Comp α β) (m : β → ρ) :
    (c.build m).collect = (c.run).map m :=
  collectFrom_eq ((c.run).map m)

/-- Last element of a one-step extension of a pipeline by a constant
generator with known last element. -/
lemma getLast?_step_const {β : Type} (c : Comp Int β) (g : List Int) (x : Int)
    (hgl : g.getLast? = some x) (t : β) (ht : c.run.getLast? = some t) :
    (Comp.step c (fun _ => g) []).run.getLast? = some (t, x) := by
  have hne : g ≠ [] := by
    intro h
    rw [h] at hgl
    exact Option.noConfusion hgl
  show (expand (fun _ => g) c.run).getLast? = _
  rw [getLast?_expand _ _ (fun e _ => hne), ht]
  simp [hgl]

end IterComp

namespace IterComp

/-! Settling the claims. -/

/-- C1: for every comprehension whose generators enumerate in strictly
increasing order, the assembled pipeline enumerates the surviving
environment tuples in strict lexicographic order over the binders, outer
binder varying slowest; in particular i in [1,3), j in [2,4) with map i*j
outputs [2,3,4,6], generated from the environment tuples
(1,2),(1,3),(2,2),(2,3) in that order. -/
theorem lex_enumeration_order {α β : Type} (lt : α → α → Prop)
    (c : Comp α β) (h : c.GensSorted lt) :
    (c.run).Pairwise (c.lexLt lt)
    ∧ comp2lex.run = [(1, 2), (1, 3), (2, 2), (2, 3)]
    ∧ comp2lex.output (fun p => p.1 * p.2) = [2, 3, 4, 6] :=
  ⟨run_pairwise_lexLt lt c h, by decide, by decide⟩

/-- Witness for C1 at the two-clause comprehension of iterator2_map_test. -/
theorem lex_enumeration_order_witness :
    comp2lex.GensSorted (fun a b : Int => a < b)
    ∧ (comp2lex.run).Pairwise (comp2lex.lexLt (fun a b : Int => a < b)) :=
  have hg : comp2lex.GensSorted (fun a b : Int => a < b) := by
    show List.Pairwise (fun a b : Int => a < b) (rangeInt 1 3)
      ∧ ∀ _ : Int, List.Pairwise (fun a b : Int => a < b) (rangeInt 2 4)
    exact ⟨by decide, fun _ => by decide⟩
  ⟨hg, (lex_enumeration_order (fun a b : Int => a < b) comp2lex hg).1⟩

/-- C2: the comprehension with i over [0,3), dependent j over [0,i+1),
predicate (i+j) % 2 == 0 and map (i, j) yields exactly
(0,0),(1,1),(2,0),(2,2) in that order. -/
theorem dependent_generator_output :
    comp2dep.output (fun p => (p.1, p.2)) = [(0, 0), (1, 1), (2, 0), (2, 2)]
    ∧ comp2dep.run = [(0, 0), (1, 1), (2, 0), (2, 2)] := by
  exact ⟨by decide, by decide⟩

/-- C3: an environment tuple that fails a predicate of its clause is
discarded before the next clause's generator can run: it never appears in
the invocation log of the following flatten stage, and that instrumented
stage computes exactly the pipeline of the extended clause list. -/
theorem predicate_blocks_next_generator {α β : Type} (c : Comp α β)
    (gen : β → List α) (preds₂ : List (β × α → Bool)) (e : β)
    (p : β → Bool) (hp : p ∈ c.preds) (he : p e = false) :
    e ∉ (expandLog gen c.run).2
    ∧ (Comp.step c gen preds₂).run = filterPreds preds₂ (expandLog gen c.run).1 := by
  constructor
  · rw [expandLog_snd]
    intro hmem
    rw [run_eq_filterPreds_candidates] at hmem
    have := (mem_filterPreds.mp hmem).2 p hp
    rw [he] at this
    exact Bool.noConfusion this
  · rw [expandLog_fst]
    rfl

/-- Witness for C3: with the filter i % 2 == 1 on the first clause, the
failing tuple 2 never reaches the second clause's generator. -/
theorem predicate_blocks_next_generator_witness :
    (fun i : Int => i % 2 == 1) ∈ comp1odd.preds
    ∧ (fun i : Int => i % 2 == 1) (2 : Int) = false
    ∧ (2 : Int) ∉ (expandLog (fun i => rangeInt 0 i) comp1odd.run).2 :=
  ⟨List.mem_singleton.mpr rfl, by decide,
    (predicate_blocks_next_generator comp1odd (fun i => rangeInt 0 i) [] 2
      (fun i : Int => i % 2 == 1) (List.mem_singleton.mpr rfl) (by decide)).1⟩

/-- C4: the flatten stage invokes its generator exactly once per surviving
outer environment tuple, in order: the invocation log equals the list of
survivors, so each occurrence of a survivor triggers exactly one fresh
evaluation, and the instrumented stage computes exactly the pipeline of the
extended clause list. -/
theorem generator_fresh_once_per_survivor {α β : Type} [DecidableEq β]
    (c : Comp α β) (gen : β → List α) (preds₂ : List (β × α → Bool)) :
    (expandLog gen c.run).2 = c.run
    ∧ (∀ e : β, ((expandLog gen c.run).2).count e = (c.run).count e)
    ∧ (Comp.step c gen preds₂).run = filterPreds preds₂ (expandLog gen c.run).1 := by
  refine ⟨expandLog_snd gen c.run, fun e => by rw [expandLog_snd], ?_⟩
  rw [expandLog_fst]
  rfl

/-- Witness for C4 on the instrumented stage following comp1odd. -/
theorem generator_fresh_once_per_survivor_witness :
    (expandLog (fun i : Int => rangeInt 0 i) comp1odd.run).2 = comp1odd.run :=
  (generator_fresh_once_per_survivor comp1odd (fun i : Int => rangeInt 0 i) []).1

/-- C5: the prepend adapter yields exactly one pair (E, x) per element x of
the inner sequence, in source order, ends with the source, and leaves the
fixed outer tuple E unchanged across all yielded pairs. -/
theorem prepend_adapter_spec {α β : Type} (e : β) (xs : List α) :
    repeatZip e xs = xs.map (fun x => (e, x))
    ∧ (repeatZip e xs).length = xs.length
    ∧ ∀ q ∈ repeatZip e xs, q.1 = e := by
  refine ⟨repeatZip_eq_map e xs, ?_, ?_⟩
  · rw [repeatZip_eq_map, List.length_map]
  · intro q hq
    rw [repeatZip_eq_map, List.mem_map] at hq
    obtain ⟨x, -, rfl⟩ := hq
    rfl

/-- Witness for C5 at a fixed outer tuple and concrete inner sequence. -/
theorem prepend_adapter_spec_witness :
    repeatZip (3 : Int) (rangeInt 0 2)
      = (rangeInt 0 2).map (fun x => ((3 : Int), x)) :=
  (prepend_adapter_spec (3 : Int) (rangeInt 0 2)).1

/-- C6: the predicates of a clause act as their left-to-right short-circuit
conjunction: the pipeline filters the clause's candidates by that
conjunction, the conjunction passes exactly when every predicate passes, and
evaluation stops at the first failing predicate. -/
theorem predicates_short_circuit_and {α β γ : Type} (c : Comp α β)
    (ps₁ ps₂ : List (γ → Bool)) (p : γ → Bool) (e : γ)
    (h1 : ∀ q ∈ ps₁, q e = true) (h2 : p e = false) :
    c.run = c.candidates.filter (fun x => andChain x c.preds)
    ∧ (∀ x : γ, andChain x (ps₁ ++ p :: ps₂) = true
        ↔ ∀ q ∈ ps₁ ++ p :: ps₂, q x = true)
    ∧ andChainEval e (ps₁ ++ p :: ps₂) = ps₁.map (fun q => q e) ++ [false] := by
  refine ⟨?_, fun x => andChain_eq_true, andChainEval_stops h1 h2⟩
  rw [run_eq_filterPreds_candidates, filterPreds_eq_filter_andChain]

/-- Witness for C6 on a concrete predicate chain over comp1odd. -/
theorem predicates_short_circuit_and_witness :
    (∀ q ∈ [fun i : Int => i % 2 == 0], q (4 : Int) = true)
    ∧ (fun i : Int => i == 5) (4 : Int) = false
    ∧ comp1odd.run = comp1odd.candidates.filter (fun x => andChain x comp1odd.preds)
    ∧ andChainEval (4 : Int)
        ([fun i : Int => i % 2 == 0] ++ (fun i : Int => i == 5) :: [])
      = [true, false] := by
  have h := predicates_short_circuit_and comp1odd
    [fun i : Int => i % 2 == 0] [] (fun i : Int => i == 5) (4 : Int)
    (by decide) (by decide)
  exact ⟨by decide, by decide, h.1, h.2.2⟩

/-- C7: an outer tuple whose inner generator yields nothing contributes zero
elements and iteration continues with the next outer tuple; in particular
i in [0,2), j in [0,i), k in [0,1) with product map outputs exactly [0]. -/
theorem empty_inner_generator_skipped {α β : Type} (gen : β → List α)
    (xs ys : List β) (e : β) (h : gen e = []) :
    expand gen (xs ++ e :: ys) = expand gen xs ++ expand gen ys
    ∧ comp3empty.output (fun q => q.1.1 * q.1.2 * q.2) = [0] := by
  constructor
  · rw [expand_append, expand, h]
    rfl
  · decide

/-- Witness for C7: the generator range(0, i) yields nothing at i = 0, and
the flatten stage skips that tuple and continues. -/
theorem empty_inner_generator_skipped_witness :
    (fun i : Int => rangeInt 0 i) (0 : Int) = []
    ∧ expand (fun i : Int => rangeInt 0 i) ([2] ++ (0 : Int) :: [1])
      = expand (fun i : Int => rangeInt 0 i) [2]
        ++ expand (fun i : Int => rangeInt 0 i) [1] :=
  ⟨by decide,
    (empty_inner_generator_skipped (fun i : Int => rangeInt 0 i) [2] [1] 0
      (by decide)).1⟩

/-- C8: six nested clauses each over [0,5) with no predicates enumerate the
6-tuples lexicographically: first (0,0,0,0,0,0), second (0,0,0,0,0,1), last
(4,4,4,4,4,4). -/
theorem six_clause_assembly :
    (comp6.output map6).head? = some (0, 0, 0, 0, 0, 0)
    ∧ ((comp6.output map6).drop 1).head? = some (0, 0, 0, 0, 0, 1)
    ∧ (comp6.output map6).getLast? = some (4, 4, 4, 4, 4, 4) := by
  refine ⟨rfl, rfl, ?_⟩
  have h1 : comp6a.run.getLast? = some 4 := by decide
  have h2 : comp6b.run.getLast? = some (4, 4) :=
    getLast?_step_const comp6a (rangeInt 0 5) 4 (by decide) 4 h1
  have h3 : comp6c.run.getLast? = some ((4, 4), 4) :=
    getLast?_step_const comp6b (rangeInt 0 5) 4 (by decide) (4, 4) h2
  have h4 : comp6d.run.getLast? = some (((4, 4), 4), 4) :=
    getLast?_step_const comp6c (rangeInt 0 5) 4 (by decide) ((4, 4), 4) h3
  have h5 : comp6e.run.getLast? = some ((((4, 4), 4), 4), 4) :=
    getLast?_step_const comp6d (rangeInt 0 5) 4 (by decide) (((4, 4), 4), 4) h4
  have h6 : comp6.run.getLast? = some (((((4, 4), 4), 4), 4), 4) :=
    getLast?_step_const comp6e (rangeInt 0 5) 4 (by decide) ((((4, 4), 4), 4), 4) h5
  show ((comp6.run).map map6).getLast? = _
  rw [List.getLast?_map, h6]
  rfl

/-- C9: building the pipeline twice from an identical clause list and
terminal map and exhausting each resulting iterator by pulls produces
identical output sequences, namely the mapped survivor stream. -/
theorem rebuild_deterministic {α β ρ : Type} (c₁ c₂ : Comp α β)
    (m₁ m₂ : β → ρ) (hc : c₁ = c₂) (hm : m₁ = m₂) :
    (c₁.build m₁).collect = (c₂.build m₂).collect
    ∧ (c₁.build m₁).collect = (c₁.run).map m₁ := by
  subst hc
  subst hm
  exact ⟨rfl, collect_build c₁ m₁⟩

/-- Witness for C9 at the comprehension of iterator2_example_test. -/
theorem rebuild_deterministic_witness :
    (comp2dep.build (fun p => (p.1, p.2))).collect
      = (comp2dep.build (fun p => (p.1, p.2))).collect
    ∧ (comp2dep.build (fun p => (p.1, p.2))).collect
      = (comp2dep.run).map (fun p => (p.1, p.2)) :=
  rebuild_deterministic comp2dep comp2dep _ _ rfl rfl

/-- C10: arglist on two or more identifiers is the pair of the arglist of
the rest with the first (most recently bound) identifier as second
component, so arglist i j k is the left-nested ((k, j), i), and this shape
is exactly the (E, x) pair shape the prepend adapter produces. -/
theorem arglist_shape_matches_prepend {α : Type} (v w : α) (ws : List α)
    (xs : List α) :
    arglist v (w :: ws) = (arglist w ws, v)
    ∧ (∀ i j k : α, arglist i [j, k] = ((k, j), i))
    ∧ repeatZip (arglist w ws) xs = xs.map (fun x => arglist x (w :: ws)) := by
  refine ⟨rfl, fun i j k => rfl, ?_⟩
  rw [repeatZip_eq_map]
  rfl

/-- Witness for C10 at three concrete binder values. -/
theorem arglist_shape_matches_prepend_witness :
    arglist (1 : Int) [2, 3] = ((((3, 2), 1) : (Int × Int) × Int)) :=
  (arglist_shape_matches_prepend (1 : Int) 2 [3] []).2.1 1 2 3

end IterComp
